import Mathlib

/-!
# Verification of the EOS likelihood-block subsystem

Shallow embedding of the statistics code in `eos/statistics/log-likelihood.cc`
and of the observable-name parsing in `eos/observable.cc`.  IEEE doubles are
modelled as real numbers; the GSL special functions appearing in the code are
modelled by their mathematical definitions (the regularized upper incomplete
gamma function as an integral divided by `Real.Gamma`).  Thrown exceptions are
modelled by `Except`.
-/

namespace EosLL

open Real

/-! ## Definitions -/

/-- The GSL routine `gsl_sf_gamma_inc_Q (a, z)`: the regularized upper
incomplete gamma function `Q(a, z) = Γ(a, z) / Γ(a)` with
`Γ(a, z) = ∫_z^∞ e^{-t} t^(a-1) dt`. -/
noncomputable def gamma_inc_Q (a z : ℝ) : ℝ :=
  (∫ t in Set.Ioi z, Real.exp (-t) * t ^ (a - 1)) / Real.Gamma a

/-- Data of `implementation::GaussianBlock`: experimental mode, the two
asymmetric uncertainties, the continuity coefficients and the log-normalization
computed by the constructor, and the number of observations. -/
structure GaussianBlock where
  mode : ℝ
  sigma_lower : ℝ
  sigma_upper : ℝ
  c_upper : ℝ
  c_lower : ℝ
  norm : ℝ
  nobs : ℕ

/-- The member-initializer list of `GaussianBlock::GaussianBlock(cache, id,
min, central, max, number_of_observations)`. -/
noncomputable def mkGaussianBlock (min central max : ℝ) (nobs : ℕ) : GaussianBlock :=
  let sigma_lower := central - min
  let sigma_upper := max - central
  let c_upper := 2 * sigma_upper / (sigma_upper + sigma_lower)
  { mode := central
    sigma_lower := sigma_lower
    sigma_upper := sigma_upper
    c_upper := c_upper
    c_lower := sigma_lower / sigma_upper * c_upper
    norm := Real.log (Real.sqrt (2 / Real.pi) / (sigma_upper + sigma_lower))
    nobs := nobs }

/-- `GaussianBlock::evaluate()`; the argument `value` stands for the cached
observable value `cache[id]`. -/
noncomputable def GaussianBlock.evaluate (b : GaussianBlock) (value : ℝ) : ℝ :=
  let sigma := if value > b.mode then b.sigma_upper else b.sigma_lower
  let chi := (value - b.mode) / sigma
  b.norm - chi ^ 2 / 2

/-- Data of `implementation::LogGammaBlock`. -/
structure LogGammaBlock where
  central : ℝ
  sigma_lower : ℝ
  sigma_upper : ℝ
  nu : ℝ
  lambda : ℝ
  alpha : ℝ
  norm : ℝ
  nobs : ℕ

/-- The member-initializer list and norm computation of the explicit
`LogGammaBlock` constructor taking `(min, central, max, lambda, alpha,
number_of_observations)`; `gsl_sf_lngamma` is modelled by `log ∘ Gamma`. -/
noncomputable def mkLogGammaBlock (min central max lambda alpha : ℝ) (nobs : ℕ) :
    LogGammaBlock :=
  { central := central
    sigma_lower := central - min
    sigma_upper := max - central
    nu := central - lambda * Real.log alpha
    lambda := lambda
    alpha := alpha
    norm := -Real.log (Real.Gamma alpha) - Real.log |lambda|
    nobs := nobs }

/-- `LogGammaBlock::cdf(x)`. -/
noncomputable def LogGammaBlock.cdf (b : LogGammaBlock) (x : ℝ) : ℝ :=
  let z := Real.exp ((x - b.nu) / b.lambda)
  if b.lambda < 0 then gamma_inc_Q b.alpha z
  else 1 - gamma_inc_Q b.alpha z

/-- `LogGammaBlock::evaluate()`. -/
noncomputable def LogGammaBlock.evaluate (b : LogGammaBlock) (value : ℝ) : ℝ :=
  let v := (value - b.nu) / b.lambda
  b.norm + b.alpha * v - Real.exp v

/-- The consistency checks of the explicit `LogGammaBlock` constructor
(interval coverage of approx. 68% and equal density at the interval ends),
which throw `InternalError` on violation. -/
noncomputable def mkLogGammaBlockChecked (min central max lambda alpha : ℝ) (nobs : ℕ) :
    Except Unit LogGammaBlock :=
  let b := mkLogGammaBlock min central max lambda alpha nobs
  if |b.cdf (central + b.sigma_upper) - b.cdf (central - b.sigma_lower) -
      0.68268949213708585| > 1e-4 then
    .error ()
  else
    let z_plus := (central + b.sigma_upper - b.nu) / lambda
    let z_minus := (central - b.sigma_lower - b.nu) / lambda
    if |alpha * z_plus - Real.exp z_plus - alpha * z_minus + Real.exp z_minus| > 1e-4 then
      .error ()
    else .ok b

/-- The factory `LogLikelihoodBlock::LogGamma(cache, observable, min, central,
max, lambda, alpha, number_of_observations)` with its input checks. -/
noncomputable def logGammaFactory (min central max lambda alpha : ℝ) (nobs : ℕ) :
    Except Unit LogGammaBlock :=
  if min ≥ central then .error ()
  else if max ≤ central then .error ()
  else if alpha ≤ 0 then .error ()
  else mkLogGammaBlockChecked min central max lambda alpha nobs

/-- Data of `implementation::AmorosoBlock`. -/
structure AmorosoBlock where
  physical_limit : ℝ
  theta : ℝ
  alpha : ℝ
  beta : ℝ
  norm : ℝ
  nobs : ℕ

/-- The field values established by `AmorosoBlock::AmorosoBlock`. -/
noncomputable def mkAmorosoBlock (physical_limit theta alpha beta : ℝ) (nobs : ℕ) :
    AmorosoBlock :=
  { physical_limit := physical_limit
    theta := theta
    alpha := alpha
    beta := beta
    norm := -Real.log (Real.Gamma alpha) + Real.log |beta / theta|
    nobs := nobs }

/-- `AmorosoBlock::AmorosoBlock` including its positivity checks on `theta`,
`alpha` and `beta`, which throw `InternalError` on violation. -/
noncomputable def mkAmorosoBlockChecked (physical_limit theta alpha beta : ℝ) (nobs : ℕ) :
    Except Unit AmorosoBlock :=
  if theta ≤ 0 then .error ()
  else if alpha ≤ 0 then .error ()
  else if beta ≤ 0 then .error ()
  else .ok (mkAmorosoBlock physical_limit theta alpha beta nobs)

/-- `AmorosoBlock::cdf(x)`; `std::pow` on real arguments is modelled by
`Real.rpow`. -/
noncomputable def AmorosoBlock.cdf (b : AmorosoBlock) (x : ℝ) : ℝ :=
  let w := ((x - b.physical_limit) / b.theta) ^ b.beta
  if b.beta / b.theta < 0 then gamma_inc_Q b.alpha w
  else 1 - gamma_inc_Q b.alpha w

/-- `AmorosoBlock::evaluate()`. -/
noncomputable def AmorosoBlock.evaluate (b : AmorosoBlock) (value : ℝ) : ℝ :=
  let z := (value - b.physical_limit) / b.theta
  b.norm + (b.alpha * b.beta - 1) * Real.log z - z ^ b.beta

/-- The factory `LogLikelihoodBlock::AmorosoLimit(cache, observable,
physical_limit, upper_limit_90, upper_limit_95, theta, alpha,
number_of_observations)`: input ordering checks, construction with
`beta = 1 / alpha`, and the two quantile consistency checks. -/
noncomputable def amorosoLimitFactory
    (physical_limit upper_limit_90 upper_limit_95 theta alpha : ℝ) (nobs : ℕ) :
    Except Unit AmorosoBlock :=
  if upper_limit_90 ≤ physical_limit then .error ()
  else if upper_limit_95 ≤ physical_limit then .error ()
  else if upper_limit_95 ≤ upper_limit_90 then .error ()
  else
    match mkAmorosoBlockChecked physical_limit theta alpha (1 / alpha) nobs with
    | .error e => .error e
    | .ok a =>
      if |a.cdf upper_limit_90 - 0.90| > 1e-4 then .error ()
      else if |a.cdf upper_limit_95 - 0.95| > 1e-4 then .error ()
      else .ok a

/-- Greatest element of a list of reals, as computed by `std::max_element`
(the source only applies it to the non-empty vector `temp`). -/
def listMax : List ℝ → ℝ
  | [] => 0
  | x :: xs => xs.foldl max x

/-- The log-sum-exp computation of `MixtureBlock::evaluate()`: `ls` is the
vector `temp` of component log-densities, `ws` the normalized weights. -/
noncomputable def mixtureEval (ls ws : List ℝ) : ℝ :=
  let m := listMax ls
  Real.log ((List.zipWith (fun w l => w * Real.exp (l - m)) ws ls).sum) + m

/-- Norm of a multivariate Gaussian:
`MultivariateGaussianBlock::compute_norm()`, where `gsl_linalg_LU_lndet`
returns the logarithm of the absolute value of the determinant. -/
noncomputable def mvgNorm {k : ℕ} (covariance : Matrix (Fin k) (Fin k) ℝ) : ℝ :=
  -0.5 * k * Real.log (2 * Real.pi) - 0.5 * Real.log |covariance.det|

/-- `MultivariateGaussianBlock::chi_square()`: the Mahalanobis distance
squared, computed in the source with the Cholesky-based inverse of the
covariance matrix. -/
noncomputable def mvgChiSquare {k : ℕ} (covariance : Matrix (Fin k) (Fin k) ℝ)
    (mean x : Fin k → ℝ) : ℝ :=
  Matrix.dotProduct (x - mean) (covariance⁻¹.mulVec (x - mean))

/-- `MultivariateGaussianBlock::evaluate()`, with `x` the vector of cached
observable values. -/
noncomputable def mvgEvaluate {k : ℕ} (covariance : Matrix (Fin k) (Fin k) ℝ)
    (mean x : Fin k → ℝ) : ℝ :=
  mvgNorm covariance - 0.5 * mvgChiSquare covariance mean x

/-- The closed polymorphic hierarchy of likelihood blocks, one constructor per
`LogLikelihoodBlock` variant.  Each leaf stores the identity `obs` of the
observable(s) it references (preserved by cloning, since the clone re-registers
a clone of the same observable) together with the constructor arguments. -/
inductive Block where
  | gaussian (obs : ℕ) (min central max : ℝ) (nobs : ℕ)
  | logGamma (obs : ℕ) (min central max lambda alpha : ℝ) (nobs : ℕ)
  | amoroso (obs : ℕ) (physical_limit theta alpha beta : ℝ) (nobs : ℕ)
  | mixture (components : List Block) (weights : List ℝ)
  | multivariateGaussian (k : ℕ) (obs : Fin k → ℕ) (mean : Fin k → ℝ)
      (covariance : Matrix (Fin k) (Fin k) ℝ) (nobs : ℕ)

/-- `evaluate()` of each block variant; `env` maps an observable identity to
its cached value (the caches are unmodified, so both the original and the
clone read the same value). -/
noncomputable def Block.evaluate (env : ℕ → ℝ) : Block → ℝ
  | .gaussian o mn c mx n => (mkGaussianBlock mn c mx n).evaluate (env o)
  | .logGamma o mn c mx lam al n => (mkLogGammaBlock mn c mx lam al n).evaluate (env o)
  | .amoroso o pl th al be n => (mkAmorosoBlock pl th al be n).evaluate (env o)
  | .mixture cs ws => mixtureEval (cs.attach.map (fun c => c.1.evaluate env)) ws
  | .multivariateGaussian _ os mean cov _ => mvgEvaluate cov mean (fun i => env (os i))
decreasing_by
  have := List.sizeOf_lt_of_mem c.2
  simp only [Block.mixture.sizeOf_spec]
  omega

/-- `clone(cache)` of each block variant: `GaussianBlock::clone` reconstructs
from `(mode - sigma_lower, mode, mode + sigma_upper)`, `LogGammaBlock::clone`
from `(central - sigma_lower, central, central + sigma_upper, lambda, alpha)`,
`AmorosoBlock::clone` and `MultivariateGaussianBlock::clone` pass their
parameters through verbatim, and `MixtureBlock::clone` clones each component
and keeps the weights. -/
noncomputable def Block.clone : Block → Block
  | .gaussian o mn c mx n =>
    let b := mkGaussianBlock mn c mx n
    .gaussian o (b.mode - b.sigma_lower) b.mode (b.mode + b.sigma_upper) b.nobs
  | .logGamma o mn c mx lam al n =>
    let b := mkLogGammaBlock mn c mx lam al n
    .logGamma o (b.central - b.sigma_lower) b.central (b.central + b.sigma_upper)
      b.lambda b.alpha b.nobs
  | .amoroso o pl th al be n => .amoroso o pl th al be n
  | .mixture cs ws => .mixture (cs.attach.map (fun c => c.1.clone)) ws
  | .multivariateGaussian k os mean cov n => .multivariateGaussian k os mean cov n
decreasing_by
  have := List.sizeOf_lt_of_mem c.2
  simp only [Block.mixture.sizeOf_spec]
  omega

/-- The factory `LogLikelihoodBlock::Mixture(components, weights)`: throws on
a size mismatch, then normalizes the weights by their sum and constructs a
`MixtureBlock`. -/
noncomputable def mixtureFactory (components : List Block) (weights : List ℝ) :
    Except Unit Block :=
  if components.length ≠ weights.length then .error ()
  else
    let sum := weights.sum
    let norm_weights := weights.map (fun w => 1 / sum * w)
    .ok (Block.mixture components norm_weights)

/-- Whether an `Except` value is an error. -/
def isErrorE {ε α : Type} : Except ε α → Bool
  | .error _ => true
  | .ok _ => false

/-- Claim C2 is about the calibration guarantee carried by a successfully
constructed block: on the `ok` path of `AmorosoLimit` both supplied quantiles
are reproduced by `cdf` to within `1e-4`; an error path carries no guarantee. -/
def amorosoLimitCalibrated (u90 u95 : ℝ) : Except Unit AmorosoBlock → Prop
  | .error _ => True
  | .ok a => |a.cdf u90 - 0.90| ≤ 1e-4 ∧ |a.cdf u95 - 0.95| ≤ 1e-4

/-- On the `ok` path of the explicit `LogGamma` constructor the one-sigma
interval carries cumulative probability `0.68268949213708585` up to `1e-4`. -/
def logGammaCalibrated : Except Unit LogGammaBlock → Prop
  | .error _ => True
  | .ok b => |b.cdf (b.central + b.sigma_upper) - b.cdf (b.central - b.sigma_lower) -
      0.68268949213708585| ≤ 1e-4

/-- A block as seen by `Implementation<LogLikelihood>::bootstrap_p_value`: a
fixed `evaluate()` value (the cache is not updated during the bootstrap), an
observation count, and a `sample(rng)` operation threading the generator state
of type `S`. -/
structure SimBlock (S : Type) where
  evaluate : ℝ
  nobs : ℕ
  sample : S → ℝ × S

/-- The observed test statistic `t_obs`: the first double loop of
`bootstrap_p_value`, skipping blocks without observations. -/
def observedTotal {S : Type} (constraints : List (List (SimBlock S))) : ℝ :=
  constraints.foldl
    (fun acc c => c.foldl (fun a b => if b.nobs = 0 then a else a + b.evaluate) acc) 0

/-- One toy dataset: `t = 0; for each constraint, for each block, t +=
sample(rng)`, threading the generator state. -/
def sampleTotal {S : Type} (constraints : List (List (SimBlock S))) (s : S) : ℝ × S :=
  constraints.foldl
    (fun acc c => c.foldl (fun p b =>
      let r := b.sample p.2
      (p.1 + r.1, r.2)) acc) (0, s)

/-- The sampling loop of `bootstrap_p_value`: `n_low` counts toy totals
strictly below the observed total. -/
noncomputable def countLow {S : Type} (constraints : List (List (SimBlock S)))
    (tObs : ℝ) : ℕ → S → ℕ
  | 0, _ => 0
  | n + 1, s =>
    let r := sampleTotal constraints s
    (if r.1 < tObs then 1 else 0) + countLow constraints tObs n r.2

/-- The list of the `n` simulated toy totals drawn in order. -/
def toyTotals {S : Type} (constraints : List (List (SimBlock S))) :
    ℕ → S → List ℝ
  | 0, _ => []
  | n + 1, s =>
    let r := sampleTotal constraints s
    r.1 :: toyTotals constraints n r.2

/-- `Implementation<LogLikelihood>::bootstrap_p_value(datasets)`: `seed`
models `gsl_rng_set(rng, datasets)`, producing the initial generator state
from the seed value (the requested number of datasets). -/
noncomputable def bootstrapPValue {S : Type} (seed : ℕ → S)
    (constraints : List (List (SimBlock S))) (datasets : ℕ) : ℝ × ℝ :=
  let tObs := observedTotal constraints
  let nLow := countLow constraints tObs datasets (seed datasets)
  let p := (nLow : ℝ) / (datasets : ℝ)
  let pExpected := ((nLow + 1 : ℕ) : ℝ) / ((datasets + 2 : ℕ) : ℝ)
  let uncertainty := Real.sqrt (pExpected * (1 - pExpected) / ((datasets + 3 : ℕ) : ℝ))
  (p, uncertainty)

/-- Option sets accumulated by `Observable::make`: a finite map from keys to
values, modelled as a function (later `set` calls override earlier ones). -/
def Opts : Type := List Char → Option (List Char)

/-- `Options::set(key, value)`. -/
def optSet (o : Opts) (key value : List Char) : Opts :=
  fun x => if x = key then some value else o x

/-- The empty option set `Options()`. -/
def emptyOpts : Opts := fun _ => none

/-- `name.rfind(',')` together with the two substrings around the found
position: returns `(name.substr(0, pos), name.substr(pos + 1))` for the last
comma, or `none` when there is no comma. -/
def splitLastComma : List Char → Option (List Char × List Char)
  | [] => none
  | c :: cs =>
    match splitLastComma cs with
    | some r => some (c :: r.1, r.2)
    | none => if c = ',' then some ([], cs) else none

/-- `clause.find('=')` together with the two substrings around the found
position (key and value of one option clause). -/
def splitFirstEq : List Char → Option (List Char × List Char)
  | [] => none
  | c :: cs =>
    if c = '=' then some ([], cs)
    else
      match splitFirstEq cs with
      | some r => some (c :: r.1, r.2)
      | none => none

/-- Splitting at the last comma strictly shrinks the name (termination measure
of the stripping loop). -/
def splitLastComma_shrinks :
    ∀ (name : List Char) (p : List Char × List Char),
      splitLastComma name = some p → p.1.length < name.length := by
  intro name
  induction name with
  | nil => intro p h; simp [splitLastComma] at h
  | cons c cs ih =>
    intro p h
    simp only [splitLastComma] at h
    cases hr : splitLastComma cs with
    | some r =>
      rw [hr] at h
      cases h
      have := ih r hr
      simp only [List.length_cons]
      omega
    | none =>
      rw [hr] at h
      by_cases hc : c = ','
      · simp [hc] at h
        cases h
        simp
      · simp [hc] at h

/-- The `while (npos != (pos = name.rfind(',')))` loop of `Observable::make`:
strips trailing `,key=value` clauses right-to-left, recording each as an
option override, and throws `ObservableNameError` when a clause has no `=`. -/
def stripOptions (o : Opts) (name : List Char) : Except Unit (List Char × Opts) :=
  match h : splitLastComma name with
  | none => .ok (name, o)
  | some (base, clause) =>
    match splitFirstEq clause with
    | none => .error ()
    | some r => stripOptions (optSet o r.1 r.2) base
termination_by name.length
decreasing_by exact splitLastComma_shrinks name (base, clause) h

/-- `Observable::make(name, ...)` after the static registry is built: strip
the option suffixes, look the remaining name up in the registry, return a null
result (`none`) when it is absent, otherwise construct the observable from the
factory entry and the collected options. -/
def observableMake (registry : List (List Char)) (name : List Char) :
    Except Unit (Option (List Char × Opts)) :=
  match stripOptions emptyOpts name with
  | .error e => .error e
  | .ok r => if r.1 ∈ registry then .ok (some (r.1, r.2)) else .ok none

/-! ## Theorems -/

/-- Claim C3 counterexample: constructing a Mixture block from an empty
component list with empty weights succeeds; no configuration error is
raised (the factory's only check is the size comparison). -/
theorem mixture_empty_no_error :
    mixtureFactory [] [] = .ok (Block.mixture [] []) := by
  simp [mixtureFactory]

/-- Claim C3 (amended): the Mixture factory raises a configuration error iff
the component and weight lists differ in length; in particular an empty
component list with empty weights, or all-zero weights of matching length,
are accepted without an error. -/
theorem mixture_error_iff_length_mismatch (components : List Block)
    (weights : List ℝ) :
    isErrorE (mixtureFactory components weights) = true ↔
      components.length ≠ weights.length := by
  by_cases h : components.length = weights.length <;>
    simp [mixtureFactory, isErrorE, h]

/-- Claim C2: each calibrated constructor either errors out or returns a
block reproducing the caller-supplied quantiles to within `1e-4`: on the `ok`
path of `AmorosoLimit` the two upper limits map to cdf values within `1e-4`
of 90% and 95%, and on the `ok` path of the explicit `LogGamma` constructor
the one-sigma interval carries 68.268949213708585% of probability up to
`1e-4`. -/
theorem calibrated_blocks_quantile_check :
    (∀ (physical_limit u90 u95 theta alpha : ℝ) (nobs : ℕ),
      amorosoLimitCalibrated u90 u95
        (amorosoLimitFactory physical_limit u90 u95 theta alpha nobs)) ∧
    (∀ (min central max lambda alpha : ℝ) (nobs : ℕ),
      logGammaCalibrated (logGammaFactory min central max lambda alpha nobs)) := by
  constructor
  · intro pl u90 u95 th al n
    unfold amorosoLimitFactory mkAmorosoBlockChecked
    repeat' split
    all_goals simp_all [amorosoLimitCalibrated]
  · intro mn c mx lam al n
    unfold logGammaFactory mkLogGammaBlockChecked
    dsimp only
    repeat' split
    all_goals simp_all [logGammaCalibrated, mkLogGammaBlock]

/-- Shifting every exponent by the maximum factors out of the weighted sum of
exponentials. -/
theorem zipWith_exp_shift (m : ℝ) :
    ∀ (ws ls : List ℝ),
      (List.zipWith (fun w l => w * Real.exp (l - m)) ws ls).sum =
        Real.exp (-m) * (List.zipWith (fun w l => w * Real.exp l) ws ls).sum := by
  intro ws
  induction ws with
  | nil => intro ls; simp
  | cons w ws ih =>
    intro ls
    cases ls with
    | nil => simp
    | cons l ls =>
      simp only [List.zipWith_cons_cons, List.sum_cons, ih ls]
      rw [Real.exp_sub, Real.exp_neg]
      ring

/-- The weighted sum of exponentials over nonnegative weights is nonnegative,
and vanishes only when all the weights in the common range vanish. -/
theorem zipWith_exp_sum_pos :
    ∀ (ws ls : List ℝ), ws.length = ls.length → (∀ w ∈ ws, 0 ≤ w) →
      0 ≤ (List.zipWith (fun w l => w * Real.exp l) ws ls).sum ∧
      ((List.zipWith (fun w l => w * Real.exp l) ws ls).sum = 0 → ws.sum = 0) := by
  intro ws
  induction ws with
  | nil => intro ls _ _; simp
  | cons w ws ih =>
    intro ls hlen hw
    cases ls with
    | nil => simp at hlen
    | cons l ls =>
      simp only [List.length_cons, Nat.succ.injEq] at hlen
      have hw0 : 0 ≤ w := hw w (by simp)
      have hws : ∀ u ∈ ws, 0 ≤ u := fun u hu => hw u (by simp [hu])
      obtain ⟨hnn, hzero⟩ := ih ls hlen hws
      have hterm : 0 ≤ w * Real.exp l :=
        mul_nonneg hw0 (Real.exp_pos l).le
      constructor
      · simpa using add_nonneg hterm hnn
      · intro hsum
        simp only [List.zipWith_cons_cons, List.sum_cons] at hsum
        have h1 : w * Real.exp l = 0 ∧
            (List.zipWith (fun w l => w * Real.exp l) ws ls).sum = 0 :=
          (add_eq_zero_iff_of_nonneg hterm hnn).mp hsum
        have hwz : w = 0 := by
          rcases mul_eq_zero.mp h1.1 with h | h
          · exact h
          · exact absurd h (Real.exp_ne_zero l)
        simp [hwz, hzero h1.2]

/-- Claim C5: for normalized nonnegative weights, the log-sum-exp computation
of `MixtureBlock::evaluate()` equals `log (Σ_i w_i · exp l_i)` computed in
plain arithmetic. -/
theorem mixture_evaluate_logsumexp (ls ws : List ℝ) (hlen : ws.length = ls.length)
    (hne : ls ≠ []) (hw : ∀ w ∈ ws, 0 ≤ w) (hsum : ws.sum = 1) :
    mixtureEval ls ws =
      Real.log ((List.zipWith (fun w l => w * Real.exp l) ws ls).sum) := by
  obtain ⟨hS0, hSzero⟩ := zipWith_exp_sum_pos ws ls hlen hw
  have hSne : (List.zipWith (fun w l => w * Real.exp l) ws ls).sum ≠ 0 := by
    intro h
    have h0 := hSzero h
    rw [hsum] at h0
    exact one_ne_zero h0
  unfold mixtureEval
  dsimp only
  rw [zipWith_exp_shift, Real.log_mul (Real.exp_ne_zero _) hSne, Real.log_exp]
  ring

/-- Cloning reproduces every block exactly: the Gaussian and LogGamma clones
reconstruct their original `(min, central, max)` from the stored mode and
sigmas, and the remaining variants pass their parameters through. -/
theorem cloneBlock_eq_self : ∀ b : Block, b.clone = b
  | .gaussian o mn c mx n => by
    simp only [Block.clone, mkGaussianBlock]
    congr 1 <;> ring
  | .logGamma o mn c mx lam al n => by
    simp only [Block.clone, mkLogGammaBlock]
    congr 1 <;> ring
  | .amoroso o pl th al be n => by simp only [Block.clone]
  | .mixture cs ws => by
    simp only [Block.clone, Block.mixture.injEq, and_true]
    have hmap : cs.attach.map (fun c => c.1.clone) = cs.attach.map (fun c => c.1) :=
      List.map_congr_left (fun c _ => cloneBlock_eq_self c.1)
    rw [hmap, List.attach_map_subtype_val]
  | .multivariateGaussian k os mean cov n => by simp only [Block.clone]
decreasing_by
  have := List.sizeOf_lt_of_mem c.2
  simp only [Block.mixture.sizeOf_spec]
  omega

/-- Claim C7: for every block variant, the clone evaluated on an unmodified
cache with identical parameter values (the same environment of cached
observable values) yields the same result as the original. -/
theorem clone_preserves_evaluate (b : Block) (env : ℕ → ℝ) :
    (Block.clone b).evaluate env = b.evaluate env := by
  rw [cloneBlock_eq_self]

/-- Claim C4: for every Gaussian block constructed with `min < central < max`,
`evaluate()` returns `norm - chi^2 / 2` where `chi = (value - mode) / sigma`,
with `sigma = sigma_upper` when the cached value exceeds the mode and
`sigma_lower` otherwise; at `value = mode` the result is exactly `norm`. -/
theorem gaussian_evaluate_spec (min central max : ℝ) (nobs : ℕ) (value : ℝ)
    (h₁ : min < central) (h₂ : central < max) :
    (mkGaussianBlock min central max nobs).evaluate value =
      (mkGaussianBlock min central max nobs).norm -
        ((value - central) /
          (if value > central then max - central else central - min)) ^ 2 / 2 ∧
    (mkGaussianBlock min central max nobs).evaluate central =
      (mkGaussianBlock min central max nobs).norm := by
  constructor
  · rfl
  · have hm : ¬ (central > central) := lt_irrefl central
    simp [GaussianBlock.evaluate, mkGaussianBlock, hm]

/-- Witness for `gaussian_evaluate_spec` at the end-to-end scenario
`(min, central, max) = (0.9, 1.0, 1.2)` with the cached value `1.0`. -/
theorem gaussian_evaluate_spec_witness :
    (0.9 : ℝ) < 1.0 ∧ (1.0 : ℝ) < 1.2 ∧
    (mkGaussianBlock 0.9 1.0 1.2 1).evaluate 1.0 =
      (mkGaussianBlock 0.9 1.0 1.2 1).norm :=
  ⟨by norm_num, by norm_num,
    (gaussian_evaluate_spec 0.9 1.0 1.2 1 1.0 (by norm_num) (by norm_num)).2⟩

/-- Witness for `mixture_evaluate_logsumexp` with a single component of
log-density `0` and weight `1`. -/
theorem mixture_evaluate_logsumexp_witness :
    mixtureEval [(0 : ℝ)] [(1 : ℝ)] =
      Real.log ((List.zipWith (fun w l => w * Real.exp l) [(1 : ℝ)] [(0 : ℝ)]).sum) :=
  mixture_evaluate_logsumexp [0] [1] (by simp) (by simp)
    (by intro w hw; simp at hw; simp [hw]) (by simp)

/-- Folding the observed-statistic accumulation over one constraint adds the
sum of `evaluate()` over its blocks with nonzero observation count. -/
theorem foldl_observed {S : Type} (c : List (SimBlock S)) :
    ∀ a : ℝ, c.foldl (fun a b => if b.nobs = 0 then a else a + b.evaluate) a =
      a + ((c.filter (fun b => b.nobs != 0)).map SimBlock.evaluate).sum := by
  induction c with
  | nil => intro a; simp
  | cons b c ih =>
    intro a
    by_cases h : b.nobs = 0
    · simp [List.foldl_cons, List.filter_cons, h, ih]
    · simp [List.foldl_cons, List.filter_cons, h, ih (a + b.evaluate)]
      ring

/-- The first double loop of `bootstrap_p_value` computes the sum of
`evaluate()` over exactly the blocks with nonzero observation count. -/
theorem observedTotal_eq {S : Type} (constraints : List (List (SimBlock S))) :
    observedTotal constraints =
      (constraints.map
        (fun c => ((c.filter (fun b => b.nobs != 0)).map SimBlock.evaluate).sum)).sum := by
  unfold observedTotal
  have h : ∀ a : ℝ,
      constraints.foldl
        (fun acc c => c.foldl (fun a b => if b.nobs = 0 then a else a + b.evaluate) acc) a =
      a + (constraints.map
        (fun c => ((c.filter (fun b => b.nobs != 0)).map SimBlock.evaluate).sum)).sum := by
    induction constraints with
    | nil => intro a; simp
    | cons c cs ih =>
      intro a
      simp only [List.foldl_cons, List.map_cons, List.sum_cons]
      rw [foldl_observed c a, ih]
      ring
  simpa using h 0

/-- The sampling loop of `bootstrap_p_value` counts exactly the toy totals
strictly below the observed total. -/
theorem countLow_eq {S : Type} (constraints : List (List (SimBlock S))) (tObs : ℝ) :
    ∀ (n : ℕ) (s : S),
      countLow constraints tObs n s =
        ((toyTotals constraints n s).filter (fun t => t < tObs)).length := by
  intro n
  induction n with
  | zero => intro s; simp [countLow, toyTotals]
  | succ n ih =>
    intro s
    simp only [countLow, toyTotals, List.filter_cons]
    by_cases h : (sampleTotal constraints s).1 < tObs
    · simp [h, ih, Nat.add_comm]
    · simp [h, ih]

/-- Claim C1: `bootstrap_p_value(n_datasets)` returns the pair
`(p, uncertainty)` where the observed statistic sums `evaluate()` over the
blocks with nonzero observation count, `n_datasets` toy totals are drawn from
the generator seeded with `n_datasets`, `n_low` counts toy totals strictly
below the observed statistic, `p = n_low / n_datasets`, and `uncertainty =
sqrt(p_expected (1 - p_expected) / (n_datasets + 3))` with
`p_expected = (n_low + 1) / (n_datasets + 2)`. -/
theorem bootstrap_p_value_spec {S : Type} (seed : ℕ → S)
    (constraints : List (List (SimBlock S))) (datasets : ℕ) :
    bootstrapPValue seed constraints datasets =
      (let tObs := (constraints.map
          (fun c => ((c.filter (fun b => b.nobs != 0)).map SimBlock.evaluate).sum)).sum
       let nLow := ((toyTotals constraints datasets (seed datasets)).filter
          (fun t => t < tObs)).length
       let pExpected := ((nLow : ℝ) + 1) / ((datasets : ℝ) + 2)
       ((nLow : ℝ) / (datasets : ℝ),
        Real.sqrt (pExpected * (1 - pExpected) / ((datasets : ℝ) + 3)))) := by
  unfold bootstrapPValue
  dsimp only
  rw [observedTotal_eq, countLow_eq]
  push_cast
  rfl

/-- A name without a comma has no last comma. -/
theorem splitLastComma_eq_none :
    ∀ (name : List Char), ',' ∉ name → splitLastComma name = none := by
  intro name
  induction name with
  | nil => intro _; rfl
  | cons c cs ih =>
    intro h
    simp only [List.mem_cons, not_or] at h
    have hc : ¬ (c = ',') := fun hh => h.1 hh.symm
    simp [splitLastComma, ih h.2, hc]

/-- Splitting at the last comma of `base ++ ',' :: clause` yields `base` and
`clause` whenever `clause` itself has no comma. -/
theorem splitLastComma_append {clause : List Char} (h : ',' ∉ clause) :
    ∀ base : List Char, splitLastComma (base ++ ',' :: clause) = some (base, clause) := by
  intro base
  induction base with
  | nil => simp [splitLastComma, splitLastComma_eq_none clause h]
  | cons c cs ih => simp [splitLastComma, ih]

/-- A clause without `=` has no first `=`. -/
theorem splitFirstEq_eq_none :
    ∀ (clause : List Char), '=' ∉ clause → splitFirstEq clause = none := by
  intro clause
  induction clause with
  | nil => intro _; rfl
  | cons c cs ih =>
    intro h
    simp only [List.mem_cons, not_or] at h
    have hc : ¬ (c = '=') := fun hh => h.1 hh.symm
    simp [splitFirstEq, ih h.2, hc]

/-- Splitting `key ++ '=' :: value` at the first `=` recovers key and value
whenever `key` itself has no `=`. -/
theorem splitFirstEq_append :
    ∀ (key : List Char), '=' ∉ key → ∀ (value : List Char),
      splitFirstEq (key ++ '=' :: value) = some (key, value) := by
  intro key
  induction key with
  | nil => intro _ value; simp [splitFirstEq]
  | cons c cs ih =>
    intro h value
    simp only [List.mem_cons, not_or] at h
    have hc : ¬ (c = '=') := fun hh => h.1 hh.symm
    simp [splitFirstEq, hc, ih h.2 value]

/-- Claim C8: trailing `,key=value` suffixes are stripped right-to-left and
recorded as option overrides before the registry lookup; a comma clause
without `=` raises the name-format error; and a stripped name absent from the
registry yields a null result rather than an error. -/
theorem observable_make_contract (registry : List (List Char)) :
    (∀ (o : Opts) (name : List Char), ',' ∉ name →
      stripOptions o name = .ok (name, o)) ∧
    (∀ (o : Opts) (base clause : List Char), ',' ∉ clause → '=' ∉ clause →
      stripOptions o (base ++ ',' :: clause) = .error ()) ∧
    (∀ (o : Opts) (base key value : List Char), ',' ∉ key → ',' ∉ value → '=' ∉ key →
      stripOptions o (base ++ ',' :: (key ++ '=' :: value)) =
        stripOptions (optSet o key value) base) ∧
    (∀ (name base : List Char) (opts : Opts),
      stripOptions emptyOpts name = .ok (base, opts) → base ∉ registry →
      observableMake registry name = .ok none) := by
  refine ⟨?_, ?_, ?_, ?_⟩
  · intro o name h
    have hn := splitLastComma_eq_none name h
    unfold stripOptions
    split
    · rfl
    · rename_i b cl heq
      simp [hn] at heq
  · intro o base clause hc he
    unfold stripOptions
    split
    · rename_i heq
      simp [splitLastComma_append hc base] at heq
    · rename_i b cl heq
      rw [splitLastComma_append hc base] at heq
      simp only [Option.some.injEq, Prod.mk.injEq] at heq
      obtain ⟨h1, h2⟩ := heq
      subst h1; subst h2
      simp [splitFirstEq_eq_none clause he]
  · intro o base key value hk hv he
    have hcl : ',' ∉ key ++ '=' :: value := by
      intro hmem
      rcases List.mem_append.mp hmem with h | h
      · exact hk h
      · rcases List.mem_cons.mp h with h | h
        · exact absurd h (by decide)
        · exact hv h
    conv_lhs => unfold stripOptions
    split
    · rename_i heq
      simp [splitLastComma_append hcl base] at heq
    · rename_i b cl heq
      rw [splitLastComma_append hcl base] at heq
      simp only [Option.some.injEq, Prod.mk.injEq] at heq
      obtain ⟨h1, h2⟩ := heq
      subst h1; subst h2
      simp [splitFirstEq_append key he value]
  · intro name base opts h hreg
    unfold observableMake
    rw [h]
    simp [hreg]

/-- Witness for `observable_make_contract`: the name `a,b` has a trailing
comma clause without `=` and is rejected with the name-format error. -/
theorem observable_make_contract_witness :
    ',' ∉ (['b'] : List Char) ∧ '=' ∉ (['b'] : List Char) ∧
    stripOptions emptyOpts (['a'] ++ ',' :: ['b']) = .error () :=
  ⟨by decide, by decide,
    (observable_make_contract []).2.1 emptyOpts ['a'] ['b'] (by decide) (by decide)⟩

/-- The Euler integrand is integrable on every tail `Ioi z` with `z ≥ 0`. -/
theorem gammaIntegrand_integrableOn {a : ℝ} (ha : 0 < a) {z : ℝ} (hz : 0 ≤ z) :
    MeasureTheory.IntegrableOn (fun t : ℝ => Real.exp (-t) * t ^ (a - 1)) (Set.Ioi z) :=
  (Real.GammaIntegral_convergent ha).mono_set (Set.Ioi_subset_Ioi hz)

/-- The Euler integrand is a.e. nonnegative on every tail `Ioi z`, `z ≥ 0`. -/
theorem gammaIntegrand_nonneg_ae {a : ℝ} {z : ℝ} (hz : 0 ≤ z) :
    0 ≤ᵐ[MeasureTheory.volume.restrict (Set.Ioi z)]
      fun t : ℝ => Real.exp (-t) * t ^ (a - 1) := by
  filter_upwards [MeasureTheory.ae_restrict_mem measurableSet_Ioi] with t ht
  have h0 : 0 < t := lt_of_le_of_lt hz ht
  positivity

/-- Tail integrals of the Euler integrand shrink as the lower limit grows. -/
theorem gammaTail_antitone {a : ℝ} (ha : 0 < a) {z zp : ℝ} (hz : 0 ≤ z) (hzz : z ≤ zp) :
    (∫ t in Set.Ioi zp, Real.exp (-t) * t ^ (a - 1)) ≤
      ∫ t in Set.Ioi z, Real.exp (-t) * t ^ (a - 1) :=
  MeasureTheory.setIntegral_mono_set (gammaIntegrand_integrableOn ha hz)
    (gammaIntegrand_nonneg_ae hz)
    (HasSubset.Subset.eventuallyLE (Set.Ioi_subset_Ioi hzz))

/-- The regularized upper incomplete gamma function is antitone in its second
argument over the nonnegative reals. -/
theorem gamma_inc_Q_antitone {a : ℝ} (ha : 0 < a) {z zp : ℝ} (hz : 0 ≤ z) (hzz : z ≤ zp) :
    gamma_inc_Q a zp ≤ gamma_inc_Q a z := by
  unfold gamma_inc_Q
  have hG : 0 < Real.Gamma a := Real.Gamma_pos_of_pos ha
  exact (div_le_div_iff_of_pos_right hG).mpr (gammaTail_antitone ha hz hzz)

/-- Claim C9: under the constructor preconditions `theta > 0`, `alpha > 0`,
`beta > 0`, the `beta / theta < 0` branch of `AmorosoBlock::cdf` is
unreachable: above the physical limit the cdf equals
`1 - Q(alpha, ((x - physical_limit) / theta) ^ beta)` and is monotone
non-decreasing. -/
theorem amoroso_cdf_branch_monotone (physical_limit theta alpha beta : ℝ) (nobs : ℕ)
    (htheta : 0 < theta) (halpha : 0 < alpha) (hbeta : 0 < beta) :
    (∀ x, physical_limit < x →
      (mkAmorosoBlock physical_limit theta alpha beta nobs).cdf x =
        1 - gamma_inc_Q alpha (((x - physical_limit) / theta) ^ beta)) ∧
    (∀ x y, physical_limit < x → x ≤ y →
      (mkAmorosoBlock physical_limit theta alpha beta nobs).cdf x ≤
        (mkAmorosoBlock physical_limit theta alpha beta nobs).cdf y) := by
  have hbranch : ¬ (beta / theta < 0) := not_lt.mpr (div_pos hbeta htheta).le
  have hcdf : ∀ x, (mkAmorosoBlock physical_limit theta alpha beta nobs).cdf x =
      1 - gamma_inc_Q alpha (((x - physical_limit) / theta) ^ beta) := by
    intro x
    unfold AmorosoBlock.cdf
    dsimp only
    simp only [mkAmorosoBlock]
    rw [if_neg hbranch]
  refine ⟨fun x _ => hcdf x, fun x y hx hxy => ?_⟩
  rw [hcdf x, hcdf y]
  have hy : physical_limit < y := lt_of_lt_of_le hx hxy
  have hbx : 0 ≤ (x - physical_limit) / theta := div_nonneg (by linarith) htheta.le
  have hwx : 0 ≤ ((x - physical_limit) / theta) ^ beta := Real.rpow_nonneg hbx beta
  have hble : (x - physical_limit) / theta ≤ (y - physical_limit) / theta :=
    (div_le_div_iff_of_pos_right htheta).mpr (by linarith)
  have hwle : ((x - physical_limit) / theta) ^ beta ≤ ((y - physical_limit) / theta) ^ beta :=
    Real.rpow_le_rpow hbx hble hbeta.le
  have := gamma_inc_Q_antitone halpha hwx hwle
  linarith

/-- Witness for `amoroso_cdf_branch_monotone` at
`(physical_limit, theta, alpha, beta) = (0, 1, 1, 1)`. -/
theorem amoroso_cdf_branch_monotone_witness :
    (0 : ℝ) < 1 ∧
    (∀ x, (0 : ℝ) < x →
      (mkAmorosoBlock 0 1 1 1 1).cdf x = 1 - gamma_inc_Q 1 (((x - 0) / 1) ^ (1 : ℝ))) :=
  ⟨one_pos,
    (amoroso_cdf_branch_monotone 0 1 1 1 1 one_pos one_pos one_pos).1⟩

/-- Inverse of a diagonal matrix with nonvanishing entries. -/
theorem diagonal_inv_eq {k : ℕ} (d : Fin k → ℝ) (hd : ∀ i, d i ≠ 0) :
    (Matrix.diagonal d)⁻¹ = Matrix.diagonal (fun i => (d i)⁻¹) := by
  apply Matrix.inv_eq_right_inv
  have h1 : (fun i => d i * (d i)⁻¹) = fun _ => (1 : ℝ) :=
    funext fun i => mul_inv_cancel₀ (hd i)
  rw [Matrix.diagonal_mul_diagonal, h1]
  exact Matrix.diagonal_one

/-- The log-normalization of the symmetric Gaussian block with
`sigma_lower = sigma_upper = sigma`. -/
theorem gaussian_symmetric_norm {sigma : ℝ} (hs : 0 < sigma) :
    Real.log (Real.sqrt (2 / Real.pi) / (sigma + sigma)) =
      -(1 / 2) * Real.log (2 * Real.pi) - Real.log sigma := by
  have hpi : 0 < Real.pi := Real.pi_pos
  have h2pi : (0 : ℝ) < 2 / Real.pi := by positivity
  have hsq : Real.sqrt (2 / Real.pi) ≠ 0 := (Real.sqrt_pos.mpr h2pi).ne'
  have hss : sigma + sigma = 2 * sigma := by ring
  rw [Real.log_div hsq (by positivity), Real.log_sqrt h2pi.le,
      Real.log_div (by norm_num) hpi.ne', hss,
      Real.log_mul (by norm_num) hs.ne', Real.log_mul (by norm_num) hpi.ne']
  ring

/-- Claim C6: a MultivariateGaussian block with diagonal covariance of entries
`sigma_i ^ 2` evaluates to the sum over `i` of the univariate symmetric
Gaussian block log-densities with standard deviation `sigma_i`, for all cached
values. -/
theorem multivariate_diagonal_reduces (k : ℕ) (sigma mean x : Fin k → ℝ) (nobs : ℕ)
    (hs : ∀ i, 0 < sigma i) :
    mvgEvaluate (Matrix.diagonal (fun i => sigma i ^ 2)) mean x =
      ∑ i, (mkGaussianBlock (mean i - sigma i) (mean i)
        (mean i + sigma i) nobs).evaluate (x i) := by
  have hrhs : ∀ i, (mkGaussianBlock (mean i - sigma i) (mean i)
      (mean i + sigma i) nobs).evaluate (x i) =
      -(1 / 2) * Real.log (2 * Real.pi) - Real.log (sigma i)
        - (x i - mean i) ^ 2 / (2 * sigma i ^ 2) := by
    intro i
    unfold GaussianBlock.evaluate mkGaussianBlock
    dsimp only
    have h1 : mean i + sigma i - mean i = sigma i := by ring
    have h2 : mean i - (mean i - sigma i) = sigma i := by ring
    rw [h1, h2, ite_self, gaussian_symmetric_norm (hs i), div_pow]
    field_simp
    ring
  simp only [hrhs]
  have hne : ∀ i, sigma i ^ 2 ≠ 0 := fun i => (pow_pos (hs i) 2).ne'
  have hdetpos : 0 < ∏ i, sigma i ^ 2 := Finset.prod_pos fun i _ => pow_pos (hs i) 2
  unfold mvgEvaluate mvgNorm mvgChiSquare
  rw [diagonal_inv_eq _ hne, Matrix.det_diagonal, abs_of_pos hdetpos,
      Real.log_prod _ _ (fun i _ => hne i)]
  simp only [Matrix.dotProduct, Matrix.mulVec_diagonal, Pi.sub_apply, Real.log_pow]
  have hk : -0.5 * (k : ℝ) * Real.log (2 * Real.pi) =
      ∑ _i : Fin k, -0.5 * Real.log (2 * Real.pi) := by
    rw [Finset.sum_const, Finset.card_univ, Fintype.card_fin, nsmul_eq_mul]
    ring
  rw [hk, Finset.mul_sum, Finset.mul_sum, ← Finset.sum_sub_distrib, ← Finset.sum_sub_distrib]
  refine Finset.sum_congr rfl fun i _ => ?_
  have hsne := (hs i).ne'
  field_simp
  ring

/-- Witness for `multivariate_diagonal_reduces` in dimension one with unit
sigma, zero mean and zero cached value. -/
theorem multivariate_diagonal_reduces_witness :
    (∀ _i : Fin 1, (0 : ℝ) < 1) ∧
    mvgEvaluate (Matrix.diagonal (fun _ : Fin 1 => (1 : ℝ) ^ 2))
        (fun _ => (0 : ℝ)) (fun _ => (0 : ℝ)) =
      ∑ _i : Fin 1, (mkGaussianBlock ((0 : ℝ) - 1) 0 (0 + 1) 1).evaluate 0 :=
  ⟨fun _ => one_pos,
    multivariate_diagonal_reduces 1 (fun _ => 1) (fun _ => 0) (fun _ => 0) 1
      (fun _ => one_pos)⟩

end EosLL
